import Mathlib

/-!
Shallow embedding of `src/libcaf/src/tree.h`.

The source defines a single class:

  class Tree {
  public:
      const std::map<std::string, TreeRecord> records;
      explicit Tree(const std::map<std::string, TreeRecord>& records): records(records) {}
      std::map<std::string, TreeRecord>::const_iterator record(const std::string& key) const {
          return records.find(key);
      }
  };

We model `std::map<std::string, R>` as an association list of
(String × R) entries whose keys are strictly increasing in the
lexicographic order on strings (the comparator `std::less<std::string>`),
bundled with that sortedness invariant.  Lexicographic comparison of two
strings is written on their character lists (`a.data < b.data`), which is
the order `String` carries (see `String.lt_iff_toList_lt`) in a form the
kernel can evaluate.  `std::map::find` is modelled as `List.find?` on the
entries: the returned `const_iterator` is either the end iterator
(`none`) or a view of the matching stored entry (`some entry`).
`TreeRecord` is opaque to the component, so the model is parameterised by
an arbitrary record type `R`.  Building a `std::map` entry by entry (the
uniqueness-enforcing assembly done by the caller before construction) is
modelled by `StdMap.insert`, which matches `std::map::insert`: a key
already present is left untouched.
-/

namespace Libcaf

/-- Model of `std::map<std::string, R>`: entries strictly sorted by key
under the lexicographic order. -/
structure StdMap (R : Type) where
  entries : List (String × R)
  sorted : entries.Pairwise (fun a b => a.1.data < b.1.data)

/-- The empty `std::map`. -/
def StdMap.empty {R : Type} : StdMap R := ⟨[], List.Pairwise.nil⟩

/-- Sorted insertion into the entry list, keeping the existing entry when
the key is already present (the semantics of `std::map::insert`). -/
def insertEntry {R : Type} (k : String) (v : R) : List (String × R) → List (String × R)
  | [] => [(k, v)]
  | e :: es =>
    if k.data < e.1.data then (k, v) :: e :: es
    else if e.1.data < k.data then e :: insertEntry k v es
    else e :: es

theorem mem_insertEntry {R : Type} {k : String} {v : R} :
    ∀ {l : List (String × R)} {a : String × R},
      a ∈ insertEntry k v l → a = (k, v) ∨ a ∈ l := by
  intro l
  induction l with
  | nil =>
    intro a ha
    simp [insertEntry] at ha
    exact Or.inl ha
  | cons e es ih =>
    intro a ha
    by_cases h1 : k.data < e.1.data
    · simp only [insertEntry, if_pos h1, List.mem_cons] at ha
      rcases ha with h | h | h
      · exact Or.inl h
      · exact Or.inr (List.mem_cons.mpr (Or.inl h))
      · exact Or.inr (List.mem_cons.mpr (Or.inr h))
    · by_cases h2 : e.1.data < k.data
      · simp only [insertEntry, if_neg h1, if_pos h2, List.mem_cons] at ha
        rcases ha with h | h
        · exact Or.inr (List.mem_cons.mpr (Or.inl h))
        · rcases ih h with h | h
          · exact Or.inl h
          · exact Or.inr (List.mem_cons.mpr (Or.inr h))
      · simp only [insertEntry, if_neg h1, if_neg h2] at ha
        exact Or.inr ha

theorem insertEntry_sorted {R : Type} (k : String) (v : R) :
    ∀ {l : List (String × R)},
      l.Pairwise (fun a b => a.1.data < b.1.data) →
      (insertEntry k v l).Pairwise (fun a b => a.1.data < b.1.data) := by
  intro l
  induction l with
  | nil =>
    intro _
    simp [insertEntry]
  | cons e es ih =>
    intro hs
    rcases List.pairwise_cons.mp hs with ⟨he, hes⟩
    by_cases h1 : k.data < e.1.data
    · simp only [insertEntry, if_pos h1]
      refine List.pairwise_cons.mpr ⟨?_, hs⟩
      intro b hb
      rcases List.mem_cons.mp hb with h | h
      · rw [h]; exact h1
      · exact lt_trans h1 (he b h)
    · by_cases h2 : e.1.data < k.data
      · simp only [insertEntry, if_neg h1, if_pos h2]
        refine List.pairwise_cons.mpr ⟨?_, ih hes⟩
        intro b hb
        rcases mem_insertEntry hb with h | h
        · rw [h]; exact h2
        · exact he b h
      · simp only [insertEntry, if_neg h1, if_neg h2]
        exact hs

/-- Model of inserting one binding into a `std::map` (the key-unique
assembly of the construction argument happens through this operation). -/
def StdMap.insert {R : Type} (m : StdMap R) (k : String) (v : R) : StdMap R :=
  ⟨insertEntry k v m.entries, insertEntry_sorted k v m.sorted⟩

/-- Build a `std::map` by inserting a list of bindings in order. -/
def StdMap.ofList {R : Type} (l : List (String × R)) : StdMap R :=
  l.foldl (fun m e => m.insert e.1 e.2) StdMap.empty

/-- Model of `std::map::find`: the end iterator is `none`, an iterator to
a stored entry is `some` of that entry. -/
def StdMap.find {R : Type} (m : StdMap R) (k : String) : Option (String × R) :=
  m.entries.find? (fun e => e.1 == k)

/-- Model of `class Tree`: its single data member is the public
`const std::map<std::string, TreeRecord> records`; the constructor
copies the caller-supplied map into that member. -/
structure Tree (R : Type) where
  records : StdMap R

/-- Model of `Tree::record`: `return records.find(key);`. -/
def Tree.record {R : Type} (t : Tree R) (key : String) : Option (String × R) :=
  t.records.find key

/-- On a key-sorted entry list, `find?` locates any stored binding. -/
theorem find?_eq_some_of_mem {R : Type} :
    ∀ {l : List (String × R)}, l.Pairwise (fun a b => a.1.data < b.1.data) →
      ∀ {k : String} {v : R}, (k, v) ∈ l →
      l.find? (fun e => e.1 == k) = some (k, v) := by
  intro l
  induction l with
  | nil => intro _ k v hm; cases hm
  | cons e es ih =>
    intro hs k v hm
    rcases List.pairwise_cons.mp hs with ⟨he, hes⟩
    rcases List.mem_cons.mp hm with h | h
    · rw [← h]
      exact List.find?_cons_of_pos _ (by simp [← h])
    · have hlt : e.1.data < k.data := he (k, v) h
      have hne : ¬ ((fun x : String × R => x.1 == k) e = true) := by
        simp only [beq_iff_eq]
        intro hEq
        rw [hEq] at hlt
        exact lt_irrefl _ hlt
      rw [List.find?_cons_of_neg es hne]
      exact ih hes h

/-- A `find` miss happens exactly when no stored entry carries the key. -/
theorem find_eq_none_iff {R : Type} (m : StdMap R) (k : String) :
    m.find k = none ↔ ∀ e ∈ m.entries, e.1 ≠ k := by
  unfold StdMap.find
  rw [List.find?_eq_none]
  simp only [beq_iff_eq]

/-- A `find` hit is a stored entry whose key is the one searched. -/
theorem find_eq_some {R : Type} {m : StdMap R} {k : String} {e : String × R}
    (h : m.find k = some e) : e ∈ m.entries ∧ e.1 = k :=
  ⟨List.mem_of_find?_eq_some h, by simpa using List.find?_some h⟩

/-- Keys of a model `std::map` are pairwise distinct. -/
theorem stdMap_keys_nodup {R : Type} (m : StdMap R) :
    (m.entries.map Prod.fst).Nodup := by
  show (m.entries.map Prod.fst).Pairwise (fun a b => a ≠ b)
  refine List.pairwise_map.mpr (m.sorted.imp ?_)
  intro a b hlt hEq
  rw [hEq] at hlt
  exact lt_irrefl _ hlt

/-- One invocation of the const accessor `Tree::record`: it produces a
result and leaves the object as it was (the method mutates nothing). -/
def Tree.recordCall {R : Type} (t : Tree R) (key : String) :
    Option (String × R) × Tree R :=
  (t.record key, t)

/-- A sequence of `n` invocations of `Tree::record` with the same key,
each call running on the object left by the previous call; yields the
list of results and the final object. -/
def Tree.recordCalls {R : Type} (t : Tree R) (key : String) :
    Nat → List (Option (String × R)) × Tree R
  | 0 => ([], t)
  | n + 1 =>
    let c := t.recordCall key
    let rest := c.2.recordCalls key n
    (c.1 :: rest.1, rest.2)

/-- Concrete map with the single binding x ↦ 5 (scenario 2 data). -/
def mX : StdMap Nat := StdMap.ofList [("x", 5)]

/-- Concrete map built by supplying a, c, b in that order (scenario 1 data). -/
def mABC : StdMap Nat := StdMap.ofList [("a", 1), ("c", 3), ("b", 2)]

/-- Claim C1: for every mapping used at construction and every key, if the
key was bound to a record in the mapping then `Tree::record` returns a view
of exactly that stored binding, and if the key was not bound then it
returns the end-of-collection marker `none`, never a synthesized record. -/
theorem lookup_correct {R : Type} (m : StdMap R) (k : String) :
    (∀ r : R, (k, r) ∈ m.entries → (Tree.mk m).record k = some (k, r)) ∧
    ((∀ r : R, (k, r) ∉ m.entries) → (Tree.mk m).record k = none) := by
  constructor
  · intro r hm
    exact find?_eq_some_of_mem m.sorted hm
  · intro habs
    rw [show (Tree.mk m).record k = m.find k from rfl, find_eq_none_iff]
    intro e he hk
    refine habs e.2 ?_
    rw [← hk]
    simpa using he

/-- Witness for C1: in the map with the single binding x ↦ 5, looking up
the key x returns that binding and looking up y returns the end marker. -/
theorem lookup_correct_witness :
    (Tree.mk mX).record "x" = some ("x", 5) ∧ (Tree.mk mX).record "y" = none := by
  constructor
  · exact (lookup_correct mX "x").1 5 (by decide)
  · refine (lookup_correct mX "y").2 ?_
    intro r hr
    rw [show mX.entries = [("x", 5)] from by decide] at hr
    have h := List.mem_singleton.mp hr
    have hne : ("y" : String) ≠ "x" := by decide
    exact absurd (congrArg Prod.fst h) hne

/-- Claim C2: iterating any constructed instance yields keys in strictly
increasing lexicographic order regardless of supply order; in particular
supplying the keys a, c, b in that order iterates as a, b, c. -/
theorem iteration_sorted {R : Type} (t : Tree R) :
    (t.records.entries.map Prod.fst).Pairwise (fun a b => a < b) ∧
    (Tree.mk mABC).records.entries.map Prod.fst = ["a", "b", "c"] := by
  constructor
  · refine List.pairwise_map.mpr (t.records.sorted.imp ?_)
    intro a b h
    exact String.lt_iff_toList_lt.mpr h
  · decide

/-- Claim C3: each key appears in the stored binding collection of an
instance exactly once, and the carrier enforces uniqueness under the
assembly operation, so duplicates cannot occur before construction. -/
theorem keys_unique {R : Type} (t : Tree R) :
    (t.records.entries.map Prod.fst).Nodup ∧
    ∀ (m : StdMap R) (k : String) (v : R),
      ((m.insert k v).entries.map Prod.fst).Nodup := by
  refine ⟨stdMap_keys_nodup t.records, ?_⟩
  intro m k v
  exact stdMap_keys_nodup (m.insert k v)

/-- Claim C4: `Tree::record` never mutates the instance: after any number
of calls with the same key the instance is unchanged, and every call in
the sequence returns the same result as a single direct lookup. -/
theorem lookup_no_mutation {R : Type} (t : Tree R) (key : String) (n : Nat) :
    (t.recordCalls key n).2 = t ∧
    ∀ r ∈ (t.recordCalls key n).1, r = t.record key := by
  induction n with
  | zero =>
    refine ⟨rfl, ?_⟩
    intro r h
    cases h
  | succ n ih =>
    refine ⟨ih.1, ?_⟩
    intro r h
    rcases List.mem_cons.mp h with h | h
    · exact h
    · exact ih.2 r h

/-- Witness for C4: three lookups of x on the one-binding tree leave it
unchanged and the first result in the sequence is the direct lookup. -/
theorem lookup_no_mutation_witness :
    ((Tree.mk mX).recordCalls "x" 3).2 = Tree.mk mX ∧
    some ("x", 5) = (Tree.mk mX).record "x" := by
  refine ⟨(lookup_no_mutation (Tree.mk mX) "x" 3).1, ?_⟩
  exact (lookup_no_mutation (Tree.mk mX) "x" 3).2 (some ("x", 5)) (by decide)

/-- Claim C5: lookup is total on all strings, its only non-success outcome
is key absence, and absence is communicated solely through the returned
end marker, never through an error channel. -/
theorem lookup_total {R : Type} (t : Tree R) (key : String) :
    (t.record key = none ∨ ∃ e, t.record key = some e) ∧
    (t.record key = none ↔ ∀ e ∈ t.records.entries, e.1 ≠ key) := by
  refine ⟨?_, find_eq_none_iff t.records key⟩
  cases h : t.record key with
  | none => exact Or.inl rfl
  | some e => exact Or.inr ⟨e, rfl⟩

/-- Witness for C5: on the one-binding tree a lookup of an absent key
produces the end marker, a value, not an error. -/
theorem lookup_total_witness :
    ((Tree.mk mX).record "nope" = none ∨
      ∃ e, (Tree.mk mX).record "nope" = some e) ∧
    (Tree.mk mX).record "nope" = none := by
  have h := lookup_total (Tree.mk mX) "nope"
  exact ⟨h.1, h.2.mpr (by decide)⟩

/-- Claim C6: construction from any well-formed mapping is total and the
stored binding set equals the supplied mapping exactly, nothing added,
dropped, or altered. -/
theorem construction_exact_copy {R : Type} (m : StdMap R) :
    (Tree.mk m).records = m ∧ (Tree.mk m).records.entries = m.entries :=
  ⟨rfl, rfl⟩

/-- Claim C7: on an instance constructed from the empty binding set,
lookup returns the end marker for every key. -/
theorem empty_lookup_none {R : Type} (k : String) :
    (Tree.mk (@StdMap.empty R)).record k = none := rfl

/-- Claim C9: the accessor `Tree::record` returns exactly the result of
calling `find` on the public `records` member, and a successful lookup is
a view of the very entry stored in `records`, not a copy. -/
theorem record_refines_find {R : Type} (t : Tree R) (k : String) :
    t.record k = t.records.find k ∧
    ∀ e, t.record k = some e → e ∈ t.records.entries := by
  refine ⟨rfl, ?_⟩
  intro e h
  exact (find_eq_some h).1

/-- Witness for C9: on the one-binding tree the two access paths agree at
key x and the successful result is the stored entry. -/
theorem record_refines_find_witness :
    (Tree.mk mX).record "x" = (Tree.mk mX).records.find "x" ∧
    ("x", 5) ∈ (Tree.mk mX).records.entries := by
  refine ⟨(record_refines_find (Tree.mk mX) "x").1, ?_⟩
  exact (record_refines_find (Tree.mk mX) "x").2 ("x", 5) (by decide)

/-- Claim C10: `Tree::record` is total and yields the end iterator exactly
when the key is absent, and otherwise an iterator to a stored entry whose
key equals the one searched, which is the case in which dereferencing is
valid. -/
theorem record_characterisation {R : Type} (t : Tree R) (k : String) :
    (t.record k = none ↔ ∀ e ∈ t.records.entries, e.1 ≠ k) ∧
    ∀ e, t.record k = some e → e ∈ t.records.entries ∧ e.1 = k := by
  refine ⟨find_eq_none_iff t.records k, ?_⟩
  intro e h
  exact find_eq_some h

/-- Witness for C10: on the three-binding tree a lookup of the absent key
q is the end iterator, and the hit at key b is the stored entry with that
key. -/
theorem record_characterisation_witness :
    (Tree.mk mABC).record "q" = none ∧
    ("b", 2) ∈ (Tree.mk mABC).records.entries ∧ ("b", 2).1 = "b" := by
  constructor
  · exact (record_characterisation (Tree.mk mABC) "q").1.mpr (by decide)
  · exact (record_characterisation (Tree.mk mABC) "b").2 ("b", 2) (by decide)

end Libcaf
